import Mathlib

/-!
Verification of the `nitro` terminal session launcher (Rust) against its
natural-language specification.  The Rust sources (`src/connect.rs`,
`src/list.rs`, `src/tmux.rs`, `src/zoxide.rs`, `src/shell.rs`) are shallowly
embedded below: strings are Lean `String`s, `PathBuf` values are the strings
they were built from (`PathBuf::from` / `to_string_lossy` / `display` do not
alter the text), the `Shell` trait is a record of pure query functions, and
each external command issued by the connector is recorded in an explicit
trace of `Cmd` values.
-/

namespace Nitro

/-- Rust's `char::is_whitespace`: the Unicode `White_Space` property. -/
def rustIsWhitespace (c : Char) : Bool :=
  let n := c.toNat
  (0x09 ≤ n && n ≤ 0x0D) || n == 0x20 || n == 0x85 || n == 0xA0 ||
    n == 0x1680 || (0x2000 ≤ n && n ≤ 0x200A) || n == 0x2028 ||
    n == 0x2029 || n == 0x202F || n == 0x205F || n == 0x3000

/-- Trim Rust-whitespace from both ends of a character list (Rust `str::trim`). -/
def rustTrimList (l : List Char) : List Char :=
  ((l.dropWhile rustIsWhitespace).reverse.dropWhile rustIsWhitespace).reverse

/-- Rust `str::trim` on strings. -/
def rustTrim (s : String) : String := ⟨rustTrimList s.data⟩

/-- Accumulator-based splitting on Rust whitespace, discarding empty pieces
(Rust `str::split_whitespace`). -/
def splitWSAux : List Char → List Char → List (List Char)
  | [], acc => if acc.isEmpty then [] else [acc.reverse]
  | c :: cs, acc =>
    if rustIsWhitespace c then
      if acc.isEmpty then splitWSAux cs [] else acc.reverse :: splitWSAux cs []
    else splitWSAux cs (c :: acc)

/-- Rust `str::split_whitespace` as a list of strings. -/
def splitWhitespace (s : String) : List String :=
  (splitWSAux s.data []).map fun l => ⟨l⟩

/-- Split a character list on a separator character, keeping empty pieces.
Always returns at least one (possibly empty) piece. -/
def splitOnChar (sep : Char) : List Char → List (List Char)
  | [] => [[]]
  | c :: cs =>
    if c = sep then [] :: splitOnChar sep cs
    else match splitOnChar sep cs with
      | [] => [[c]]
      | p :: ps => (c :: p) :: ps

/-- Drop one trailing carriage return (the `\r` of a `\r\n` line terminator). -/
def stripTrailingCR (l : List Char) : List Char :=
  if l.getLast? = some '\r' then l.dropLast else l

/-- Rust `str::lines`: split on `\n`, strip a trailing `\r` from each
newline-terminated piece, and produce no final piece for a trailing newline. -/
def linesOf (s : String) : List String :=
  let segs := splitOnChar '\n' s.data
  let body := segs.dropLast.map stripTrailingCR
  let last := (segs.getLast?).getD []
  (if last.isEmpty then body else body ++ [last]).map fun l => ⟨l⟩

/-- Rust `Path::file_name` on the textual form of a path: the last
slash-separated component after discarding empty and `.` components, unless
that component is `..` (or there is none). -/
def fileName (s : String) : Option String :=
  let comps := (splitOnChar '/' s.data).filter fun c => !(c.isEmpty) && !(c == ['.'])
  match comps.getLast? with
  | some c => if c == ['.', '.'] then none else some ⟨c⟩
  | none => none

/-- Byte-order (equivalently code-point-order) lexicographic `≤` on
character lists, as used by Rust's `Vec::<String>::sort`. -/
def charsLe : List Char → List Char → Bool
  | [], _ => true
  | _ :: _, [] => false
  | a :: as, b :: bs =>
    if a.toNat < b.toNat then true
    else if b.toNat < a.toNat then false
    else charsLe as bs

/-- Lexicographic `≤` on strings. -/
def strLe (a b : String) : Bool := charsLe a.data b.data

/-- Insert a string into a `strLe`-sorted list, keeping it sorted. -/
def insertLe (x : String) : List String → List String
  | [] => [x]
  | y :: ys => if strLe x y then x :: y :: ys else y :: insertLe x ys

/-- Insertion sort by `strLe`; for a total antisymmetric order this yields the
same result as Rust's stable `Vec::sort`. -/
def sortStrings : List String → List String
  | [] => []
  | x :: xs => insertLe x (sortStrings xs)

/-! ### `connect.rs`: line parsing and name normalization -/

/-- Parsed selection line: session name plus optional directory
(`ParsedLine` in `connect.rs`). -/
structure ParsedLine where
  name : String
  path : Option String
deriving DecidableEq, Repr

/-- Everything after the first occurrence of `c` (used for the byte slice
`&s[pos + 1..]` where `pos` is the index found by `s.find(']')`). -/
def dropThroughChar (c : Char) : List Char → List Char
  | [] => []
  | x :: xs => if x = c then xs else dropThroughChar c xs

/-- Strip a leading bracketed marker such as `[t] ` or `[z] `: when the line
starts with `[` and contains `]`, drop everything through the first `]` and
one following space if present (the source's `pos < s.len()` guard is always
true for a found index and is therefore omitted). -/
def stripBracketMarker (s : String) : String :=
  if s.data.head? = some '[' ∧ ']' ∈ s.data then
    match dropThroughChar ']' s.data with
    | ' ' :: rest => ⟨rest⟩
    | after => ⟨after⟩
  else s

/-- The tmux icon glyph `U+EBC8` (`ICON_TMUX`). -/
def glyphTmux : Char := Char.ofNat 0xEBC8

/-- The zoxide icon glyph `U+F114` (`ICON_ZOX`). -/
def glyphZox : Char := Char.ofNat 0xF114

/-- Strip a leading icon glyph followed by one or two spaces (the four
`strip` cases of `parse_connect_line`, tried two-space first). -/
def stripGlyphMarker (s : String) : String :=
  match s.data with
  | c :: ' ' :: ' ' :: rest =>
    if c = glyphTmux ∨ c = glyphZox then ⟨rest⟩ else s
  | c :: ' ' :: rest =>
    if c = glyphTmux ∨ c = glyphZox then ⟨rest⟩ else s
  | _ => s

/-- Does the token begin with `/` (Rust `part.starts_with('/')`)? -/
def startsWithSlash (s : String) : Bool := s.data.head? == some '/'

/-- Index of the first token beginning with `/` (the `split_idx` loop). -/
def findSlashIdx : List String → Option Nat
  | [] => none
  | p :: rest =>
    if startsWithSlash p then some 0 else (findSlashIdx rest).map (· + 1)

/-- Split the stripped remainder into pre-normalization name and optional
path: tokens before the first `/`-token are space-joined into the name, that
token and the rest are space-joined into the path; with no `/`-token the
whole remainder is the name. -/
def splitNamePath (s : String) : String × Option String :=
  let parts := splitWhitespace s
  match findSlashIdx parts with
  | some i =>
    (String.intercalate " " (parts.take i),
     some (String.intercalate " " (parts.drop i)))
  | none => (s, none)

/-- One pass of `normalize_name`'s character loop, carrying the `last_dash`
flag: whitespace becomes a single `-` per run, `:` and `#` become `-`
(resetting the flag), all else is copied. -/
def normChars : Bool → List Char → List Char
  | _, [] => []
  | lastDash, c :: cs =>
    if rustIsWhitespace c then
      if lastDash then normChars true cs else '-' :: normChars true cs
    else if c = ':' ∨ c = '#' then '-' :: normChars false cs
    else c :: normChars false cs

/-- Trim `-` from both ends (Rust `str::trim_matches('-')`). -/
def trimDashes (l : List Char) : List Char :=
  ((l.dropWhile fun c => c == '-').reverse.dropWhile fun c => c == '-').reverse

/-- `normalize_name` from `connect.rs`. -/
def normalize_name (s : String) : String :=
  ⟨trimDashes (normChars false (rustTrimList s.data))⟩

/-- The marker-stripped, trimmed join of the input tokens: the string the
splitting step of `parse_connect_line` operates on. -/
def remainderOf (tokens : List String) : String :=
  stripGlyphMarker (stripBracketMarker (rustTrim (String.intercalate " " tokens)))

/-- `parse_connect_line` from `connect.rs`. -/
def parse_connect_line (tokens : List String) : ParsedLine :=
  let s := remainderOf tokens
  let np := splitNamePath s
  let name := normalize_name np.1
  let name :=
    if (name = "" ∨ name = "-") ∧ np.2.isSome then
      match np.2.bind fileName with
      | some base => normalize_name base
      | none => name
    else name
  ⟨name, np.2⟩

/-! ### `shell.rs`: the execution interface, and command traces -/

/-- One external command invocation: program plus arguments. -/
structure Cmd where
  program : String
  args : List String
deriving DecidableEq, Repr

/-- Decidable equality for `Except`, so that concrete query results can be
checked by evaluation. -/
instance {ε α : Type} [DecidableEq ε] [DecidableEq α] : DecidableEq (Except ε α) :=
  fun a b =>
    match a, b with
    | .ok x, .ok y =>
      if h : x = y then .isTrue (by rw [h])
      else .isFalse fun he => h (Except.ok.inj he)
    | .ok _, .error _ => .isFalse fun he => Except.noConfusion he
    | .error _, .ok _ => .isFalse fun he => Except.noConfusion he
    | .error x, .error y =>
      if h : x = y then .isTrue (by rw [h])
      else .isFalse fun he => h (Except.error.inj he)

/-- The `Shell` trait as a record of pure query results.  `Except Unit`
models Rust's `Result` (the error payload is irrelevant to the core logic);
`homeDir` models the ambient `dirs_next::home_dir()` lookup used by
`run_connect`. -/
structure Shell where
  run : String → List String → Except Unit String
  runStatus : String → List String → Except Unit Bool
  runTty : String → List String → Except Unit Unit
  envVar : String → Option String
  homeDir : Option String

/-- Capture-output invocation of a command, recording it in the trace. -/
def Shell.runC (sh : Shell) (c : Cmd) : Except Unit String × List Cmd :=
  (sh.run c.program c.args, [c])

/-- Status-only invocation of a command, recording it in the trace. -/
def Shell.statusC (sh : Shell) (c : Cmd) : Except Unit Bool × List Cmd :=
  (sh.runStatus c.program c.args, [c])

/-- Terminal-inheriting invocation of a command, recording it in the trace. -/
def Shell.ttyC (sh : Shell) (c : Cmd) : Except Unit Unit × List Cmd :=
  (sh.runTty c.program c.args, [c])

/-! ### `tmux.rs`: the session directory resolver -/

/-- `list_sessions` from `tmux.rs`: query failure becomes empty output
(`unwrap_or_default`); lines are trimmed, empties dropped, the rest sorted.
The Rust function's `Result` wrapper is always `Ok` and is omitted. -/
def list_sessions (sh : Shell) : List String :=
  let out := (sh.run "tmux" ["list-sessions", "-F", "#S"]).toOption.getD ""
  sortStrings (((linesOf out).map rustTrim).filter fun s => !(s == ""))

/-- Split at the first occurrence of `sep`, when present: the pieces before
and after it (Rust `splitn(2, sep)` with both pieces produced). -/
def splitOnce (sep : Char) : List Char → Option (List Char × List Char)
  | [] => none
  | c :: cs =>
    if c = sep then some ([], cs)
    else (splitOnce sep cs).map fun pr => (c :: pr.1, pr.2)

/-- `active_session` from `tmux.rs`, fallback line parsing: `splitn(2,'\t')`
must yield `("1", name)` with non-empty trimmed `name`. -/
def parseAttachedLine (l : String) : Option String :=
  match splitOnce '\t' l.data with
  | some (pre, post) =>
    if pre = ['1'] then
      let n := rustTrim ⟨post⟩
      if n = "" then none else some n
    else none
  | none => none

/-- `active_session` from `tmux.rs`: first the direct `display-message`
query (trimmed first line, if non-empty), else the lexicographically first
attached session from the tagged listing; query failures become empty
output. -/
def active_session (sh : Shell) : Option String :=
  let disp := (sh.run "tmux" ["display-message", "-p", "-F", "#S"]).toOption.getD ""
  let name := ((linesOf disp).head?.map rustTrim).getD ""
  if name ≠ "" then some name
  else
    let out :=
      (sh.run "tmux" ["list-sessions", "-F", "#\x7b?session_attached,1,0\x7d\t#S"]).toOption.getD ""
    let attached := (linesOf out).filterMap parseAttachedLine
    (sortStrings attached).head?

/-- `has_session` from `tmux.rs`, with its command trace. -/
def has_session (sh : Shell) (name : String) : Except Unit Bool × List Cmd :=
  sh.statusC ⟨"tmux", ["has-session", "-t", name]⟩

/-- `create_session` from `tmux.rs`, with its command trace. -/
def create_session (sh : Shell) (name dir : String) : Except Unit Unit × List Cmd :=
  let r := sh.runC ⟨"tmux", ["new-session", "-ds", name, "-c", dir]⟩
  (r.1.map fun _ => (), r.2)

/-- `attach_or_switch` from `tmux.rs`, with its command trace: switch the
client when the `TMUX` environment marker is set, else attach on a TTY. -/
def attach_or_switch (sh : Shell) (name : String) : Except Unit Unit × List Cmd :=
  if (sh.envVar "TMUX").isSome then
    let r := sh.runC ⟨"tmux", ["switch-client", "-t", name]⟩
    (r.1.map fun _ => (), r.2)
  else
    sh.ttyC ⟨"tmux", ["attach", "-t", name]⟩

/-! ### `zoxide.rs`: the frecency source adapter -/

/-- `list_all` from `zoxide.rs`: query failure becomes empty output; lines
are trimmed and empties dropped; each remaining line is one item's path.
The Rust `Result` wrapper is always `Ok` and is omitted. -/
def list_all (sh : Shell) : List String :=
  let out := (sh.run "zoxide" ["query", "-l"]).toOption.getD ""
  ((linesOf out).map rustTrim).filter fun p => !(p == "")

/-- `best_match_dir` from `zoxide.rs`, with its command trace: the trimmed
first line of the query output, filtered non-empty; a failed query is no
match. -/
def best_match_dir (sh : Shell) (query : String) : Option String × List Cmd :=
  let r := sh.runC ⟨"zoxide", ["query", query]⟩
  (match r.1 with
   | .ok s => ((linesOf s).head?.map rustTrim).filter fun p => !(p == "")
   | .error _ => none,
   r.2)

/-! ### `connect.rs`: the connector -/

/-- Options of `run_connect` (`ConnectOptions` in `connect.rs`). -/
structure ConnectOptions where
  tokens : List String
  dir : Option String

/-- Outcome of `run_connect`: Rust's `Result<()>`, with the two error
sources kept distinct. -/
inductive ConnectErr where
  | emptyName
  | cmdFailed
deriving DecidableEq, Repr

/-- The working-directory choice of `run_connect` (its `let dir = ...`
chain): `--dir` override, else parsed path, else zoxide best match, else
home directory, else `"."`; paired with the commands issued while choosing. -/
def connectDir (sh : Shell) (opts : ConnectOptions) (path : Option String)
    (name : String) : String × List Cmd :=
  match opts.dir with
  | some d => (d, [])
  | none =>
    match path with
    | some p => (p, [])
    | none =>
      let m := best_match_dir sh name
      match m.1 with
      | some p => (p, m.2)
      | none => (sh.homeDir.getD ".", m.2)

/-- `run_connect` from `connect.rs`, returning its outcome together with the
ordered trace of every external command issued. -/
def run_connect (sh : Shell) (opts : ConnectOptions) :
    Except ConnectErr Unit × List Cmd :=
  let pl := parse_connect_line opts.tokens
  if pl.name = "" then (.error .emptyName, [])
  else
    let hs := has_session sh pl.name
    if hs.1.toOption.getD false then
      let a := attach_or_switch sh pl.name
      (match a.1 with
       | .ok _ => .ok ()
       | .error _ => .error .cmdFailed,
       hs.2 ++ a.2)
    else
      let dc := connectDir sh opts pl.path pl.name
      let cr := create_session sh pl.name dc.1
      match cr.1 with
      | .error _ => (.error .cmdFailed, hs.2 ++ dc.2 ++ cr.2)
      | .ok _ =>
        let a := attach_or_switch sh pl.name
        (match a.1 with
         | .ok _ => .ok ()
         | .error _ => .error .cmdFailed,
         hs.2 ++ dc.2 ++ cr.2 ++ a.2)

/-! ### `list.rs`: the list composer -/

/-- `ICON_TMUX` (the glyph `U+EBC8`). -/
def ICON_TMUX : String := ⟨[glyphTmux]⟩

/-- `ICON_ZOX` (the glyph `U+F114`). -/
def ICON_ZOX : String := ⟨[glyphZox]⟩

/-- `COLOR_TMUX`: the ANSI magenta sequence. -/
def COLOR_TMUX : String := "\x1b[35m"

/-- `COLOR_ZOX`: the ANSI blue sequence. -/
def COLOR_ZOX : String := "\x1b[34m"

/-- `COLOR_RESET`: the ANSI reset sequence. -/
def COLOR_RESET : String := "\x1b[0m"

/-- `ListOptions` from `list.rs`. -/
structure ListOptions where
  include_tmux : Bool
  include_zox : Bool
  z_limit : Option Nat
  icons : Bool
  no_color : Bool

/-- `colorize` from `list.rs`. -/
def colorize (enabled : Bool) (color s : String) : String :=
  if enabled then color ++ s ++ COLOR_RESET else s

/-- The display line for one session (tmux branch of the emit loop). -/
def fmtTmuxLine (opts : ListOptions) (s : String) : String :=
  if opts.icons then colorize (!opts.no_color) COLOR_TMUX ICON_TMUX ++ " " ++ s
  else colorize (!opts.no_color) COLOR_TMUX "[t]" ++ " " ++ s

/-- The display line for one frecency path (zoxide branch of the emit loop). -/
def fmtZoxLine (opts : ListOptions) (p : String) : String :=
  if opts.icons then colorize (!opts.no_color) COLOR_ZOX ICON_ZOX ++ " " ++ p
  else colorize (!opts.no_color) COLOR_ZOX "[z]" ++ " " ++ p

/-- First position of `a` in the list (Rust `Iterator::position` with an
equality predicate). -/
def positionEq (a : String) : List String → Option Nat
  | [] => none
  | x :: xs => if x = a then some 0 else (positionEq a xs).map (· + 1)

/-- Promotion of the active session to the front of the session list
(`sessions.remove(i)` followed by `sessions.insert(0, s)`). -/
def promoteActive (sessions : List String) (active : Option String) : List String :=
  match active with
  | some a =>
    match positionEq a sessions with
    | some i =>
      match sessions.get? i with
      | some s => s :: sessions.eraseIdx i
      | none => sessions
    | none => sessions
  | none => sessions

/-- The would-be session name of a frecency path: its final component's
normalization (`file_name` text, defaulted to empty, then `normalize_name`). -/
def zoxNameOf (p : String) : String := normalize_name ((fileName p).getD "")

/-- `build_list_lines` from `list.rs`: the session block (lines plus the
set of normalized session names, built in one pass) followed by the frecency
block (truncated, then filtered against that set).  The `let Ok(..)` guards
of the source always match and are omitted. -/
def build_list_lines (sh : Shell) (opts : ListOptions) : List String :=
  let tmuxPart : List String × List String :=
    if opts.include_tmux then
      let sessions := promoteActive (list_sessions sh) (active_session sh)
      sessions.foldl
        (fun st s => (st.1 ++ [fmtTmuxLine opts s], st.2 ++ [normalize_name s]))
        (([], []) : List String × List String)
    else ([], [])
  let zoxLines : List String :=
    if opts.include_zox then
      let items := list_all sh
      let items := match opts.z_limit with
        | some n => items.take n
        | none => items
      items.foldl
        (fun acc p =>
          if tmuxPart.2.contains (zoxNameOf p) then acc
          else acc ++ [fmtZoxLine opts p])
        []
    else []
  tmuxPart.1 ++ zoxLines

/-! ### Derived views of the list composition, used to state its properties -/

/-- The session names in display order: the sorted listing with the active
session promoted to the front. -/
def tmuxSessionsOf (sh : Shell) : List String :=
  promoteActive (list_sessions sh) (active_session sh)

/-- The frecency items actually considered: the listing truncated to the
numeric limit when one is supplied. -/
def zoxItemsOf (sh : Shell) (opts : ListOptions) : List String :=
  match opts.z_limit with
  | some n => (list_all sh).take n
  | none => list_all sh

/-- The considered frecency items that survive deduplication against the
normalized session names. -/
def zoxKeptOf (sh : Shell) (opts : ListOptions) : List String :=
  (zoxItemsOf sh opts).filter fun p =>
    !(((tmuxSessionsOf sh).map normalize_name).contains (zoxNameOf p))

/-- Modelled from the claim's words, for comparison with `best_match_dir`:
the first non-empty trimmed line of the best-match query output. -/
def specFirstNonEmptyLine (out : String) : Option String :=
  (((linesOf out).map rustTrim).filter fun l => !(l == "")).head?

/-! ### Concrete shells used for witnesses and counterexamples -/

/-- A shell on which every external query and command fails. -/
def shellAllFail : Shell :=
  { run := fun _ _ => .error ()
    runStatus := fun _ _ => .error ()
    runTty := fun _ _ => .error ()
    envVar := fun _ => none
    homeDir := none }

/-- A shell with tmux sessions `a` and `b` (no active one) and zoxide paths
`/x/a`, `/y/b`, `/z/c`. -/
def shellBoth : Shell :=
  { run := fun p a =>
      if p = "tmux" ∧ a = ["list-sessions", "-F", "#S"] then .ok "b\na\n"
      else if p = "zoxide" ∧ a = ["query", "-l"] then .ok "/x/a\n/y/b\n/z/c\n"
      else .error ()
    runStatus := fun _ _ => .error ()
    runTty := fun _ _ => .error ()
    envVar := fun _ => none
    homeDir := none }

/-- A shell with tmux sessions `a`, `b`, `c` whose active session is `b`. -/
def shellActive : Shell :=
  { run := fun p a =>
      if p = "tmux" ∧ a = ["list-sessions", "-F", "#S"] then .ok "b\nc\na\n"
      else if p = "tmux" ∧ a = ["display-message", "-p", "-F", "#S"] then .ok "b\n"
      else .error ()
    runStatus := fun _ _ => .error ()
    runTty := fun _ _ => .error ()
    envVar := fun _ => none
    homeDir := none }

/-- A shell on which every session-existence check succeeds and every other
call also succeeds; used for connecting to an existing session. -/
def shellExists : Shell :=
  { run := fun _ _ => .ok ""
    runStatus := fun _ _ => .ok true
    runTty := fun _ _ => .ok ()
    envVar := fun _ => none
    homeDir := none }

/-- A shell with no existing sessions, home directory `/home/u`, and a
best-match query answer whose first line is empty and second line is `/x`. -/
def shellBlankFirstLine : Shell :=
  { run := fun p a =>
      if p = "zoxide" ∧ a = ["query", "web"] then .ok "\n/x\n"
      else .ok ""
    runStatus := fun _ _ => .ok false
    runTty := fun _ _ => .ok ()
    envVar := fun _ => none
    homeDir := some "/home/u" }

/-- ASCII-style list options with both sources enabled and no limit. -/
def asciiOpts : ListOptions := ⟨true, true, none, false, true⟩

/-- The working directory `run_connect` passes to session creation for the
given invocation (the value of its `dir` chain). -/
def chosenDirOf (sh : Shell) (opts : ConnectOptions) : String :=
  (connectDir sh opts (parse_connect_line opts.tokens).path
    (parse_connect_line opts.tokens).name).1

/-! ## Helper lemmas -/

theorem parse_path_eq (tokens : List String) :
    (parse_connect_line tokens).path = (splitNamePath (remainderOf tokens)).2 := rfl

theorem findSlashIdx_append (pre : List String) (t : String) (post : List String)
    (hpre : ∀ u ∈ pre, startsWithSlash u = false) (ht : startsWithSlash t = true) :
    findSlashIdx (pre ++ t :: post) = some pre.length := by
  induction pre with
  | nil => simp [findSlashIdx, ht]
  | cons u us ih =>
    have hu : startsWithSlash u = false := hpre u (List.mem_cons_self u us)
    have ihh := ih fun v hv => hpre v (List.mem_cons_of_mem u hv)
    simp [findSlashIdx, hu, ihh]

theorem findSlashIdx_none (parts : List String)
    (h : ∀ u ∈ parts, startsWithSlash u = false) :
    findSlashIdx parts = none := by
  induction parts with
  | nil => rfl
  | cons u us ih =>
    have hu : startsWithSlash u = false := h u (List.mem_cons_self u us)
    have ihh := ih fun v hv => h v (List.mem_cons_of_mem u hv)
    simp [findSlashIdx, hu, ihh]

theorem run_connect_creates (sh : Shell) (opts : ConnectOptions)
    (hn : (parse_connect_line opts.tokens).name ≠ "")
    (hfalse : (has_session sh (parse_connect_line opts.tokens).name).1.toOption.getD false
      = false) :
    Cmd.mk "tmux" ["new-session", "-ds", (parse_connect_line opts.tokens).name, "-c",
        chosenDirOf sh opts]
      ∈ (run_connect sh opts).2 := by
  unfold run_connect chosenDirOf
  simp only [if_neg hn, hfalse, Bool.false_eq_true, if_false]
  cases hcr : (create_session sh (parse_connect_line opts.tokens).name
      (connectDir sh opts (parse_connect_line opts.tokens).path
        (parse_connect_line opts.tokens).name).1).1 with
  | error e =>
    simp [hcr, create_session, Shell.runC, List.mem_append]
  | ok v =>
    simp [hcr, create_session, Shell.runC, List.mem_append]

theorem dropThroughChar_after (tag r : List Char) (h : ']' ∉ tag) :
    dropThroughChar ']' (tag ++ ']' :: r) = r := by
  induction tag with
  | nil => simp [dropThroughChar]
  | cons c cs ih =>
    have hc : c ≠ ']' := fun hc => h (hc ▸ List.mem_cons_self c cs)
    have ihh := ih fun hm => h (List.mem_cons_of_mem c hm)
    simp [dropThroughChar, hc, ihh]

theorem dropWhile_eq_self_of_head {p : Char → Bool} :
    ∀ l : List Char, (∀ c, l.head? = some c → p c = false) → l.dropWhile p = l
  | [], _ => rfl
  | c :: cs, h => by
    rw [List.dropWhile_cons, if_neg]
    rw [h c rfl]
    simp

theorem dropWhile_eq_self_of_all {p : Char → Bool} :
    ∀ l : List Char, (∀ c ∈ l, p c = false) → l.dropWhile p = l
  | [], _ => rfl
  | c :: cs, h =>
    dropWhile_eq_self_of_head (c :: cs) fun d hd => by
      simp only [List.head?_cons, Option.some.injEq] at hd
      exact hd ▸ h c (List.mem_cons_self c cs)

theorem head_dropWhile_false {p : Char → Bool} :
    ∀ (l : List Char) (c : Char), (l.dropWhile p).head? = some c → p c = false := by
  intro l
  induction l with
  | nil => intro c h; cases h
  | cons a as ih =>
    intro c h
    by_cases hp : p a = true
    · rw [List.dropWhile_cons, if_pos hp] at h
      exact ih c h
    · rw [List.dropWhile_cons, if_neg hp] at h
      simp only [List.head?_cons, Option.some.injEq] at h
      cases hpc : p c with
      | false => rfl
      | true => exact absurd (h ▸ hpc) hp

theorem getLast?_dropWhile {p : Char → Bool} :
    ∀ l : List Char, l.dropWhile p ≠ [] →
      (l.dropWhile p).getLast? = l.getLast? := by
  intro l
  induction l with
  | nil => intro h; exact absurd rfl h
  | cons a as ih =>
    intro h
    by_cases hp : p a = true
    · rw [List.dropWhile_cons, if_pos hp] at h ⊢
      rw [ih h]
      cases as with
      | nil => exact absurd rfl h
      | cons b bs => rw [List.getLast?_cons_cons]
    · rw [List.dropWhile_cons, if_neg hp]

theorem mem_of_mem_dropWhile {p : Char → Bool} {c : Char} :
    ∀ {l : List Char}, c ∈ l.dropWhile p → c ∈ l := by
  intro l
  induction l with
  | nil => intro h; cases h
  | cons a as ih =>
    intro h
    by_cases hp : p a = true
    · rw [List.dropWhile_cons, if_pos hp] at h
      exact List.mem_cons_of_mem a (ih h)
    · rw [List.dropWhile_cons, if_neg hp] at h
      exact h

theorem mem_of_mem_trimDashes {c : Char} {l : List Char}
    (h : c ∈ trimDashes l) : c ∈ l := by
  unfold trimDashes at h
  rw [List.mem_reverse] at h
  have h2 := mem_of_mem_dropWhile h
  rw [List.mem_reverse] at h2
  exact mem_of_mem_dropWhile h2

theorem trimDashes_head {l : List Char} {c : Char}
    (h : (trimDashes l).head? = some c) : c ≠ '-' := by
  unfold trimDashes at h
  rw [List.head?_reverse] at h
  have hne : ((l.dropWhile fun c => c == '-').reverse.dropWhile fun c => c == '-') ≠ [] := by
    intro he
    rw [he] at h
    cases h
  rw [getLast?_dropWhile _ hne, List.getLast?_reverse] at h
  have := head_dropWhile_false (p := fun c => c == '-') l c h
  simpa using this

theorem trimDashes_getLast {l : List Char} {c : Char}
    (h : (trimDashes l).getLast? = some c) : c ≠ '-' := by
  unfold trimDashes at h
  rw [List.getLast?_reverse] at h
  have := head_dropWhile_false (p := fun c => c == '-') _ c h
  simpa using this

theorem trimDashes_eq_self {l : List Char}
    (h1 : ∀ c, l.head? = some c → c ≠ '-')
    (h2 : ∀ c, l.getLast? = some c → c ≠ '-') :
    trimDashes l = l := by
  unfold trimDashes
  have e1 : (l.dropWhile fun c => c == '-') = l :=
    dropWhile_eq_self_of_head l fun c hc => by simpa using h1 c hc
  rw [e1]
  have e2 : (l.reverse.dropWhile fun c => c == '-') = l.reverse :=
    dropWhile_eq_self_of_head l.reverse fun c hc => by
      rw [List.head?_reverse] at hc
      simpa using h2 c hc
  rw [e2, List.reverse_reverse]

theorem normChars_mem :
    ∀ (b : Bool) (l : List Char) (c : Char), c ∈ normChars b l →
      rustIsWhitespace c = false ∧ c ≠ ':' ∧ c ≠ '#' := by
  intro b l
  induction l generalizing b with
  | nil => intro c h; cases h
  | cons a as ih =>
    intro c h
    have hdash : rustIsWhitespace '-' = false ∧ ('-' : Char) ≠ ':' ∧ ('-' : Char) ≠ '#' := by
      decide
    unfold normChars at h
    by_cases hw : rustIsWhitespace a = true
    · rw [if_pos hw] at h
      cases b with
      | true => exact ih true c (by simpa using h)
      | false =>
        rcases List.mem_cons.1 (by simpa using h) with rfl | hm
        · exact hdash
        · exact ih true c hm
    · rw [if_neg hw] at h
      by_cases hac : a = ':' ∨ a = '#'
      · rw [if_pos hac] at h
        rcases List.mem_cons.1 h with rfl | hm
        · exact hdash
        · exact ih false c hm
      · rw [if_neg hac] at h
        rcases List.mem_cons.1 h with rfl | hm
        · push_neg at hac
          exact ⟨by simpa using hw, hac.1, hac.2⟩
        · exact ih false c hm

theorem normChars_eq_self :
    ∀ l : List Char,
      (∀ c ∈ l, rustIsWhitespace c = false ∧ c ≠ ':' ∧ c ≠ '#') →
      normChars false l = l := by
  intro l
  induction l with
  | nil => intro _; rfl
  | cons a as ih =>
    intro h
    have ha := h a (List.mem_cons_self a as)
    unfold normChars
    rw [if_neg (by simp [ha.1]), if_neg (by
      intro hc
      rcases hc with hc | hc
      · exact ha.2.1 hc
      · exact ha.2.2 hc)]
    rw [ih fun c hc => h c (List.mem_cons_of_mem a hc)]

theorem rustTrimList_eq_self {l : List Char}
    (h : ∀ c ∈ l, rustIsWhitespace c = false) :
    rustTrimList l = l := by
  unfold rustTrimList
  have e1 : l.dropWhile rustIsWhitespace = l := dropWhile_eq_self_of_all l h
  rw [e1]
  have e2 : l.reverse.dropWhile rustIsWhitespace = l.reverse :=
    dropWhile_eq_self_of_all l.reverse fun c hc => h c (List.mem_reverse.1 hc)
  rw [e2, List.reverse_reverse]

theorem charsLe_trans :
    ∀ a b c : List Char, charsLe a b = true → charsLe b c = true →
      charsLe a c = true := by
  intro a
  induction a with
  | nil => intro b c h1 h2; rfl
  | cons x xs ih =>
    intro b c h1 h2
    cases b with
    | nil => simp [charsLe] at h1
    | cons y ys =>
      cases c with
      | nil => simp [charsLe] at h2
      | cons z zs =>
        unfold charsLe at h1 h2 ⊢
        by_cases hxy : x.toNat < y.toNat
        · by_cases hyz : y.toNat < z.toNat
          · rw [if_pos (by omega)]
          · by_cases hzy : z.toNat < y.toNat
            · rw [if_neg hyz, if_pos hzy] at h2; cases h2
            · rw [if_pos (by omega)]
        · by_cases hyx : y.toNat < x.toNat
          · rw [if_neg hxy, if_pos hyx] at h1; cases h1
          · rw [if_neg hxy, if_neg hyx] at h1
            by_cases hyz : y.toNat < z.toNat
            · rw [if_pos (by omega)]
            · by_cases hzy : z.toNat < y.toNat
              · rw [if_neg hyz, if_pos hzy] at h2; cases h2
              · rw [if_neg hyz, if_neg hzy] at h2
                rw [if_neg (by omega), if_neg (by omega)]
                exact ih ys zs h1 h2

theorem charsLe_total :
    ∀ a b : List Char, charsLe a b = true ∨ charsLe b a = true := by
  intro a
  induction a with
  | nil => intro b; exact .inl rfl
  | cons x xs ih =>
    intro b
    cases b with
    | nil => exact .inr rfl
    | cons y ys =>
      unfold charsLe
      by_cases hxy : x.toNat < y.toNat
      · exact .inl (by rw [if_pos hxy])
      · by_cases hyx : y.toNat < x.toNat
        · exact .inr (by rw [if_pos hyx])
        · rcases ih ys with h | h
          · exact .inl (by rw [if_neg hxy, if_neg hyx]; exact h)
          · exact .inr (by rw [if_neg hyx, if_neg hxy]; exact h)

theorem strLe_trans (a b c : String) (h1 : strLe a b = true) (h2 : strLe b c = true) :
    strLe a c = true :=
  charsLe_trans a.data b.data c.data h1 h2

theorem strLe_total (a b : String) : strLe a b = true ∨ strLe b a = true :=
  charsLe_total a.data b.data

theorem mem_insertLe {x z : String} :
    ∀ {l : List String}, z ∈ insertLe x l → z = x ∨ z ∈ l := by
  intro l
  induction l with
  | nil =>
    intro h
    rcases List.mem_singleton.1 h with rfl
    exact .inl rfl
  | cons y ys ih =>
    intro h
    unfold insertLe at h
    by_cases hxy : strLe x y = true
    · rw [if_pos hxy] at h
      rcases List.mem_cons.1 h with rfl | h2
      · exact .inl rfl
      · exact .inr h2
    · rw [if_neg hxy] at h
      rcases List.mem_cons.1 h with rfl | h2
      · exact .inr (List.mem_cons_self z ys)
      · rcases ih h2 with h3 | h3
        · exact .inl h3
        · exact .inr (List.mem_cons_of_mem y h3)

theorem pairwise_insertLe {x : String} :
    ∀ {l : List String}, List.Pairwise (fun a b => strLe a b = true) l →
      List.Pairwise (fun a b => strLe a b = true) (insertLe x l) := by
  intro l
  induction l with
  | nil => intro _; simp [insertLe]
  | cons y ys ih =>
    intro h
    rw [List.pairwise_cons] at h
    obtain ⟨hy, hys⟩ := h
    unfold insertLe
    by_cases hxy : strLe x y = true
    · rw [if_pos hxy, List.pairwise_cons]
      refine ⟨?_, List.pairwise_cons.2 ⟨hy, hys⟩⟩
      intro z hz
      rcases List.mem_cons.1 hz with rfl | hm
      · exact hxy
      · exact strLe_trans x y z hxy (hy z hm)
    · rw [if_neg hxy, List.pairwise_cons]
      refine ⟨?_, ih hys⟩
      intro z hz
      rcases mem_insertLe hz with rfl | hm
      · exact (strLe_total z y).resolve_left hxy
      · exact hy z hm

theorem sortStrings_pairwise :
    ∀ l : List String, List.Pairwise (fun a b => strLe a b = true) (sortStrings l) := by
  intro l
  induction l with
  | nil => exact List.Pairwise.nil
  | cons x xs ih => exact pairwise_insertLe ih

theorem positionEq_append (a : String) :
    ∀ (pre : List String) (post : List String), a ∉ pre →
      positionEq a (pre ++ a :: post) = some pre.length := by
  intro pre
  induction pre with
  | nil => intro post _; simp [positionEq]
  | cons x xs ih =>
    intro post h
    have hx : x ≠ a := fun he => h (he ▸ List.mem_cons_self x xs)
    simp [positionEq, hx, ih post fun hm => h (List.mem_cons_of_mem x hm)]

theorem get?_append_len (a : String) :
    ∀ (pre : List String) (post : List String),
      (pre ++ a :: post).get? pre.length = some a := by
  intro pre
  induction pre with
  | nil => intro post; rfl
  | cons x xs ih =>
    intro post
    simpa using ih post

theorem eraseIdx_append_len (a : String) :
    ∀ (pre : List String) (post : List String),
      (pre ++ a :: post).eraseIdx pre.length = pre ++ post := by
  intro pre
  induction pre with
  | nil => intro post; rfl
  | cons x xs ih =>
    intro post
    simpa using ih post

theorem promoteActive_promotes (a : String) (pre post : List String) (h : a ∉ pre) :
    promoteActive (pre ++ a :: post) (some a) = a :: (pre ++ post) := by
  simp only [promoteActive, positionEq_append a pre post h, get?_append_len a pre post,
    eraseIdx_append_len a pre post]

theorem tmux_foldl_eq (opts : ListOptions) :
    ∀ (sessions : List String) (acc : List String × List String),
      sessions.foldl
        (fun st s => (st.1 ++ [fmtTmuxLine opts s], st.2 ++ [normalize_name s])) acc
      = (acc.1 ++ sessions.map (fmtTmuxLine opts),
         acc.2 ++ sessions.map normalize_name) := by
  intro sessions
  induction sessions with
  | nil => intro acc; simp
  | cons a as ih =>
    intro acc
    rw [List.foldl_cons, ih]
    simp

theorem zox_foldl_eq (opts : ListOptions) (names : List String) :
    ∀ (items : List String) (acc : List String),
      items.foldl
        (fun acc p =>
          if names.contains (zoxNameOf p) then acc
          else acc ++ [fmtZoxLine opts p]) acc
      = acc ++ (items.filter fun p => !(names.contains (zoxNameOf p))).map
          (fmtZoxLine opts) := by
  intro items
  induction items with
  | nil => intro acc; simp
  | cons a as ih =>
    intro acc
    rw [List.foldl_cons]
    by_cases h : names.contains (zoxNameOf a) = true
    · rw [if_pos h, ih, List.filter_cons, if_neg (by rw [h]; simp)]
    · have hf : names.contains (zoxNameOf a) = false := by
        cases hcc : names.contains (zoxNameOf a)
        · rfl
        · exact absurd hcc h
      rw [if_neg h, ih, List.filter_cons, if_pos (by rw [hf]; rfl)]
      rw [List.map_cons, List.append_assoc]
      rfl

theorem build_list_lines_eq (sh : Shell) (opts : ListOptions) :
    build_list_lines sh opts =
      (if opts.include_tmux then (tmuxSessionsOf sh).map (fmtTmuxLine opts) else [])
        ++ (if opts.include_zox then
              ((zoxItemsOf sh opts).filter fun p =>
                !((if opts.include_tmux then (tmuxSessionsOf sh).map normalize_name
                    else []).contains (zoxNameOf p))).map (fmtZoxLine opts)
            else []) := by
  unfold build_list_lines tmuxSessionsOf zoxItemsOf
  by_cases ht : opts.include_tmux = true <;>
    by_cases hz : opts.include_zox = true <;>
      simp only [ht, hz, eq_self_iff_true, if_true, Bool.false_eq_true, if_false,
        tmux_foldl_eq, zox_foldl_eq, List.nil_append, List.append_nil]

theorem build_both_eq (sh : Shell) (opts : ListOptions)
    (ht : opts.include_tmux = true) (hz : opts.include_zox = true) :
    build_list_lines sh opts =
      (tmuxSessionsOf sh).map (fmtTmuxLine opts)
        ++ (zoxKeptOf sh opts).map (fmtZoxLine opts) := by
  rw [build_list_lines_eq]
  simp only [ht, hz, eq_self_iff_true, if_true]
  rfl

theorem zoxItems_sublist (sh : Shell) (opts : ListOptions) :
    (zoxItemsOf sh opts).Sublist (list_all sh) := by
  unfold zoxItemsOf
  cases hll : opts.z_limit with
  | none => simp [hll]
  | some n =>
    simp only [hll]
    exact List.take_sublist n _

/-! ## Claims -/

/-- Claim C3: after marker stripping, the parser splits the remainder on
whitespace; the first token beginning with `/` starts the path (that token
and all later ones, space-joined) while all strictly earlier tokens,
space-joined, form the pre-normalization name; with no such token the whole
remainder is the name and there is no path; tokens
`["[t]", "my", "session", "/work/x"]` parse to name `my-session` with path
`/work/x`. -/
theorem c3_first_slash_token_split :
    (∀ tokens pre t post,
        splitWhitespace (remainderOf tokens) = pre ++ t :: post →
        startsWithSlash t = true →
        (∀ u ∈ pre, startsWithSlash u = false) →
        splitNamePath (remainderOf tokens) =
          (String.intercalate " " pre, some (String.intercalate " " (t :: post))) ∧
        (parse_connect_line tokens).path =
          some (String.intercalate " " (t :: post))) ∧
    (∀ tokens,
        (∀ u ∈ splitWhitespace (remainderOf tokens), startsWithSlash u = false) →
        splitNamePath (remainderOf tokens) = (remainderOf tokens, none) ∧
        (parse_connect_line tokens).path = none) ∧
    parse_connect_line ["[t]", "my", "session", "/work/x"] =
      ⟨"my-session", some "/work/x"⟩ := by
  refine ⟨?_, ?_, by decide⟩
  · intro tokens pre t post hsplit ht hpre
    have hidx : findSlashIdx (pre ++ t :: post) = some pre.length :=
      findSlashIdx_append pre t post hpre ht
    have hs : splitNamePath (remainderOf tokens) =
        (String.intercalate " " pre, some (String.intercalate " " (t :: post))) := by
      unfold splitNamePath
      simp only [hsplit, hidx, List.take_left, List.drop_left]
    exact ⟨hs, by rw [parse_path_eq, hs]⟩
  · intro tokens h
    have hidx : findSlashIdx (splitWhitespace (remainderOf tokens)) = none :=
      findSlashIdx_none _ h
    have hs : splitNamePath (remainderOf tokens) = (remainderOf tokens, none) := by
      unfold splitNamePath
      simp only [hidx]
    exact ⟨hs, by rw [parse_path_eq, hs]⟩

theorem c3_first_slash_token_split_witness :
    splitNamePath (remainderOf ["my", "session", "/work/x"]) =
      ("my session", some "/work/x") ∧
    (parse_connect_line ["my", "session", "/work/x"]).path = some "/work/x" := by
  have h := c3_first_slash_token_split.1 ["my", "session", "/work/x"]
    ["my", "session"] "/work/x" [] (by decide) (by decide) (by decide)
  exact ⟨h.1.trans (by decide), h.2.trans (by decide)⟩

/-- Claim C5: when the normalized pre-path name is empty or the single
character `-` and a path was found, the session name is the path's final
component normalized identically; the single token `/a/b/c` parses to name
`c` with path `/a/b/c`. -/
theorem c5_name_from_basename :
    (∀ tokens p base,
        (splitNamePath (remainderOf tokens)).2 = some p →
        (normalize_name (splitNamePath (remainderOf tokens)).1 = "" ∨
          normalize_name (splitNamePath (remainderOf tokens)).1 = "-") →
        fileName p = some base →
        parse_connect_line tokens = ⟨normalize_name base, some p⟩) ∧
    parse_connect_line ["/a/b/c"] = ⟨"c", some "/a/b/c"⟩ := by
  refine ⟨?_, by decide⟩
  intro tokens p base hp hname hbase
  unfold parse_connect_line
  simp only [hp, Option.isSome_some, and_true, Option.some_bind, hbase]
  rw [if_pos hname]

theorem c5_name_from_basename_witness :
    parse_connect_line ["/srv/api"] = ⟨normalize_name "api", some "/srv/api"⟩ :=
  c5_name_from_basename.1 ["/srv/api"] "/srv/api" "api"
    (by decide) (by decide) (by decide)

/-- Claim C10: a token sequence parsing to an empty session name makes
`run_connect` fail with the empty-name error and an empty command trace: no
existence query, creation, or attach is ever issued. -/
theorem c10_empty_name_no_commands :
    ∀ (sh : Shell) (opts : ConnectOptions),
      (parse_connect_line opts.tokens).name = "" →
      run_connect sh opts = (.error .emptyName, []) := by
  intro sh opts h
  unfold run_connect
  rw [if_pos h]

theorem c10_empty_name_no_commands_witness :
    run_connect shellAllFail ⟨[], none⟩ = (.error .emptyName, []) :=
  c10_empty_name_no_commands shellAllFail ⟨[], none⟩ (by decide)

/-- Claim C4, counterexample: the claim says a leading bracketed prefix with
an empty tag is not stripped, so the line `[] x` would keep its marker and
the name would be `normalize_name "[] x" = "[]-x"`; the code strips the
empty-tag marker and parses the name `x`. -/
theorem c4_counterexample :
    (parse_connect_line ["[]", "x"]).name = "x" ∧
    normalize_name "[] x" = "[]-x" ∧
    (parse_connect_line ["[]", "x"]).name ≠ normalize_name "[] x" := by
  decide

/-- Claim C4, amended: the parser strips one leading bracketed marker exactly
when the joined trimmed line starts with `[` and contains `]`: everything
through the first `]` is removed, plus one following space if present; the
tag may be empty and a following space is not required; a line not of that
shape is left unchanged, and a parsed name excludes the stripped marker, as
on the line `[] x`. -/
theorem c4_bracket_marker_stripping :
    (∀ tag rest : String, ']' ∉ tag.data →
        stripBracketMarker ("[" ++ tag ++ "] " ++ rest) = rest) ∧
    (∀ tag rest : String, ']' ∉ tag.data → rest.data.head? ≠ some ' ' →
        stripBracketMarker ("[" ++ tag ++ "]" ++ rest) = rest) ∧
    (∀ s : String, s.data.head? ≠ some '[' → stripBracketMarker s = s) ∧
    (∀ s : String, ']' ∉ s.data → stripBracketMarker s = s) ∧
    (parse_connect_line ["[]", "x"]).name = "x" := by
  refine ⟨?_, ?_, ?_, ?_, by decide⟩
  · intro tag rest h
    have hdata : ("[" ++ tag ++ "] " ++ rest).data
        = '[' :: (tag.data ++ ']' :: ' ' :: rest.data) := by
      have e1 : "[".data = ['['] := rfl
      have e2 : "] ".data = [']', ' '] := rfl
      simp [String.data_append, e1, e2]
    unfold stripBracketMarker
    rw [if_pos]
    · rw [hdata]
      have hd : dropThroughChar ']' ('[' :: (tag.data ++ ']' :: ' ' :: rest.data))
          = ' ' :: rest.data := by
        have : ('[' : Char) ≠ ']' := by decide
        simp [dropThroughChar, this, dropThroughChar_after tag.data (' ' :: rest.data) h]
      rw [hd]
      rfl
    · rw [hdata]
      exact ⟨rfl, by simp⟩
  · intro tag rest h hr
    have hdata : ("[" ++ tag ++ "]" ++ rest).data
        = '[' :: (tag.data ++ ']' :: rest.data) := by
      have e1 : "[".data = ['['] := rfl
      have e2 : "]".data = [']'] := rfl
      simp [String.data_append, e1, e2]
    unfold stripBracketMarker
    rw [if_pos]
    · rw [hdata]
      have hd : dropThroughChar ']' ('[' :: (tag.data ++ ']' :: rest.data))
          = rest.data := by
        have : ('[' : Char) ≠ ']' := by decide
        simp [dropThroughChar, this, dropThroughChar_after tag.data rest.data h]
      rw [hd]
      split
      · next r heq => exact absurd (by rw [heq]; rfl) hr
      · rfl
    · rw [hdata]
      exact ⟨rfl, by simp⟩
  · intro s h
    unfold stripBracketMarker
    rw [if_neg]
    intro hc
    exact h hc.1
  · intro s h
    unfold stripBracketMarker
    rw [if_neg]
    intro hc
    exact h hc.2

theorem c4_bracket_marker_stripping_witness :
    stripBracketMarker ("[" ++ "t" ++ "] " ++ "foo") = "foo" :=
  c4_bracket_marker_stripping.1 "t" "foo" (by decide)

/-- Claim C2: when the parsed name denotes a session the existence query
reports as existing, the connector only queries existence and attaches or
switches: the command trace is exactly the existence query followed by the
attach/switch commands, and no command in it is a session creation or a
frecency query, regardless of the directory override, parsed path, or any
frecency state. -/
theorem c2_existing_session_only_attach :
    ∀ (sh : Shell) (opts : ConnectOptions),
      (parse_connect_line opts.tokens).name ≠ "" →
      (has_session sh (parse_connect_line opts.tokens).name).1 = .ok true →
      (run_connect sh opts).2 =
        Cmd.mk "tmux" ["has-session", "-t", (parse_connect_line opts.tokens).name] ::
          (attach_or_switch sh (parse_connect_line opts.tokens).name).2 ∧
      (∀ c ∈ (run_connect sh opts).2,
        c.args.head? ≠ some "new-session" ∧ c.program ≠ "zoxide") := by
  intro sh opts hn hs
  have hrs : sh.runStatus "tmux" ["has-session", "-t", (parse_connect_line opts.tokens).name]
      = .ok true := hs
  have htrace : (run_connect sh opts).2 =
      Cmd.mk "tmux" ["has-session", "-t", (parse_connect_line opts.tokens).name] ::
        (attach_or_switch sh (parse_connect_line opts.tokens).name).2 := by
    unfold run_connect
    simp [if_neg hn, has_session, Shell.statusC, hrs, Except.toOption]
  refine ⟨htrace, ?_⟩
  intro c hc
  rw [htrace] at hc
  unfold attach_or_switch at hc
  by_cases henv : (sh.envVar "TMUX").isSome
  · simp only [if_pos henv, Shell.runC, List.mem_cons, List.mem_singleton] at hc
    rcases hc with rfl | rfl | h
    · exact ⟨by simp, by simp⟩
    · exact ⟨by simp, by simp⟩
    · exact absurd h (by simp)
  · simp only [if_neg henv, Shell.ttyC, List.mem_cons, List.mem_singleton] at hc
    rcases hc with rfl | rfl | h
    · exact ⟨by simp, by simp⟩
    · exact ⟨by simp, by simp⟩
    · exact absurd h (by simp)

theorem c2_existing_session_only_attach_witness :
    (run_connect shellExists ⟨["web"], none⟩).2 =
      [⟨"tmux", ["has-session", "-t", "web"]⟩, ⟨"tmux", ["attach", "-t", "web"]⟩] :=
  ((c2_existing_session_only_attach shellExists ⟨["web"], none⟩ (by decide)
    (by decide)).1).trans (by decide)

/-- Claim C9: read-only collaborator failures are recovered locally: a
failing session-listing query yields the empty session list; a failing
best-match query, or one whose output has no non-empty line, yields no
match; and a failing existence query during connect is treated as "does not
exist", so the creation branch is still taken. -/
theorem c9_query_failures_recovered :
    (∀ sh : Shell,
        sh.run "tmux" ["list-sessions", "-F", "#S"] = .error () →
        list_sessions sh = []) ∧
    (∀ (sh : Shell) (q : String),
        sh.run "zoxide" ["query", q] = .error () →
        (best_match_dir sh q).1 = none) ∧
    (∀ (sh : Shell) (q s : String),
        sh.run "zoxide" ["query", q] = .ok s →
        (∀ l ∈ linesOf s, rustTrim l = "") →
        (best_match_dir sh q).1 = none) ∧
    (∀ (sh : Shell) (opts : ConnectOptions),
        (parse_connect_line opts.tokens).name ≠ "" →
        (has_session sh (parse_connect_line opts.tokens).name).1 = .error () →
        Cmd.mk "tmux" ["new-session", "-ds", (parse_connect_line opts.tokens).name,
            "-c", chosenDirOf sh opts]
          ∈ (run_connect sh opts).2) := by
  refine ⟨?_, ?_, ?_, ?_⟩
  · intro sh h
    unfold list_sessions
    simp [h, Except.toOption]
    rfl
  · intro sh q h
    unfold best_match_dir Shell.runC
    simp [h]
  · intro sh q s hok hempty
    unfold best_match_dir Shell.runC
    simp only [hok]
    cases hl : (linesOf s).head? with
    | none => simp [hl]
    | some l =>
      have hmem : l ∈ linesOf s := by
        cases hls : linesOf s with
        | nil => rw [hls] at hl; cases hl
        | cons a as =>
          rw [hls] at hl
          simp only [List.head?_cons, Option.some.injEq] at hl
          rw [← hl]
          exact List.mem_cons_self a as
      have : rustTrim l = "" := hempty l hmem
      simp [hl, this, Option.filter]
  · intro sh opts hn herr
    refine run_connect_creates sh opts hn ?_
    rw [herr]
    rfl

theorem c9_query_failures_recovered_witness :
    list_sessions shellAllFail = [] ∧
    (best_match_dir shellAllFail "web").1 = none ∧
    Cmd.mk "tmux" ["new-session", "-ds", "web", "-c", "."]
      ∈ (run_connect shellAllFail ⟨["web"], none⟩).2 := by
  refine ⟨c9_query_failures_recovered.1 shellAllFail (by decide),
    c9_query_failures_recovered.2.1 shellAllFail "web" (by decide), ?_⟩
  have h := c9_query_failures_recovered.2.2.2 shellAllFail ⟨["web"], none⟩
    (by decide) (by decide)
  exact (by decide :
    Cmd.mk "tmux" ["new-session", "-ds", (parse_connect_line ["web"]).name, "-c",
      chosenDirOf shellAllFail ⟨["web"], none⟩]
    = Cmd.mk "tmux" ["new-session", "-ds", "web", "-c", "."]) ▸ h

/-- Claim C1, counterexample: the claim's frecency fallback is "the first
non-empty trimmed line" of the best-match query output; on the output
`"\n/x\n"` that would be `/x`, but the code inspects only the very first
line, finds it empty, and falls back to the home directory instead. -/
theorem c1_counterexample :
    specFirstNonEmptyLine "\n/x\n" = some "/x" ∧
    shellBlankFirstLine.run "zoxide" ["query", "web"] = .ok "\n/x\n" ∧
    shellBlankFirstLine.homeDir = some "/home/u" ∧
    Cmd.mk "tmux" ["new-session", "-ds", "web", "-c", "/home/u"]
      ∈ (run_connect shellBlankFirstLine ⟨["web"], none⟩).2 ∧
    Cmd.mk "tmux" ["new-session", "-ds", "web", "-c", "/x"]
      ∉ (run_connect shellBlankFirstLine ⟨["web"], none⟩).2 := by
  decide

/-- Claim C1, amended: for a connect invocation on a session name reported
as not existing, session creation is invoked with the directory chosen by
strict priority: the explicit override, else the parsed path, else the
best-match result — which is the trimmed first line of the frecency query
output when that line is non-empty, and no match otherwise — else the home
directory, or `.` when home is undeterminable; with no override, a parsed
path wins over any frecency match. -/
theorem c1_directory_priority :
    ∀ (sh : Shell) (opts : ConnectOptions),
      (parse_connect_line opts.tokens).name ≠ "" →
      (has_session sh (parse_connect_line opts.tokens).name).1.toOption.getD false
        = false →
      Cmd.mk "tmux" ["new-session", "-ds", (parse_connect_line opts.tokens).name,
          "-c", chosenDirOf sh opts]
        ∈ (run_connect sh opts).2 ∧
      (∀ d, opts.dir = some d → chosenDirOf sh opts = d) ∧
      (∀ p, opts.dir = none → (parse_connect_line opts.tokens).path = some p →
        chosenDirOf sh opts = p) ∧
      (∀ q, opts.dir = none → (parse_connect_line opts.tokens).path = none →
        (best_match_dir sh (parse_connect_line opts.tokens).name).1 = some q →
        chosenDirOf sh opts = q) ∧
      (opts.dir = none → (parse_connect_line opts.tokens).path = none →
        (best_match_dir sh (parse_connect_line opts.tokens).name).1 = none →
        chosenDirOf sh opts = sh.homeDir.getD ".") ∧
      (∀ s, sh.run "zoxide" ["query", (parse_connect_line opts.tokens).name] = .ok s →
        (best_match_dir sh (parse_connect_line opts.tokens).name).1 =
          ((linesOf s).head?.map rustTrim).filter fun p => !(p == "")) := by
  intro sh opts hn hfalse
  refine ⟨run_connect_creates sh opts hn hfalse, ?_, ?_, ?_, ?_, ?_⟩
  · intro d hd
    unfold chosenDirOf connectDir
    simp [hd]
  · intro p hd hp
    unfold chosenDirOf connectDir
    simp [hd, hp]
  · intro q hd hp hq
    unfold chosenDirOf connectDir
    simp [hd, hp, hq]
  · intro hd hp hq
    unfold chosenDirOf connectDir
    simp [hd, hp, hq]
  · intro s hok
    unfold best_match_dir Shell.runC
    simp [hok]

/-- Claim C6: name normalization is idempotent, and every output contains no
whitespace character, no `:` and no `#`, and neither starts nor ends with
`-`. -/
theorem c6_normalize_name_idempotent :
    ∀ s : String,
      normalize_name (normalize_name s) = normalize_name s ∧
      (∀ c ∈ (normalize_name s).data,
        rustIsWhitespace c = false ∧ c ≠ ':' ∧ c ≠ '#') ∧
      (∀ c, (normalize_name s).data.head? = some c → c ≠ '-') ∧
      (∀ c, (normalize_name s).data.getLast? = some c → c ≠ '-') := by
  intro s
  have hdata : (normalize_name s).data
      = trimDashes (normChars false (rustTrimList s.data)) := rfl
  have hmem : ∀ c ∈ (normalize_name s).data,
      rustIsWhitespace c = false ∧ c ≠ ':' ∧ c ≠ '#' := by
    intro c hc
    rw [hdata] at hc
    exact normChars_mem false _ c (mem_of_mem_trimDashes hc)
  have hh : ∀ c, (normalize_name s).data.head? = some c → c ≠ '-' := by
    intro c hc
    rw [hdata] at hc
    exact trimDashes_head hc
  have hl : ∀ c, (normalize_name s).data.getLast? = some c → c ≠ '-' := by
    intro c hc
    rw [hdata] at hc
    exact trimDashes_getLast hc
  refine ⟨?_, hmem, hh, hl⟩
  have e0 : normalize_name (normalize_name s)
      = ⟨trimDashes (normChars false (rustTrimList (normalize_name s).data))⟩ := rfl
  have e1 : rustTrimList (normalize_name s).data = (normalize_name s).data :=
    rustTrimList_eq_self fun c hc => (hmem c hc).1
  have e2 : normChars false (normalize_name s).data = (normalize_name s).data :=
    normChars_eq_self _ hmem
  have e3 : trimDashes (normalize_name s).data = (normalize_name s).data :=
    trimDashes_eq_self hh hl
  rw [e0, e1, e2, e3]

theorem c6_normalize_name_idempotent_witness :
    normalize_name (normalize_name "a: b") = normalize_name "a: b" ∧
    (rustIsWhitespace 'a' = false ∧ ('a' : Char) ≠ ':' ∧ ('a' : Char) ≠ '#') ∧
    ('a' : Char) ≠ '-' := by
  refine ⟨(c6_normalize_name_idempotent "a: b").1,
    (c6_normalize_name_idempotent "a: b").2.1 'a' (by decide), ?_⟩
  exact (c6_normalize_name_idempotent "a: b").2.2.1 'a' (by decide)

/-- Claim C7: with both sources enabled, a considered frecency item is kept
exactly when the normalization of its path's final component differs from
every listed session's normalized name; a supplied numeric limit truncates
the frecency sequence before this filter, so at most that many items are
considered; with sessions `a`, `b` and paths `/x/a`, `/y/b`, `/z/c` only
`/z/c` is emitted from the frecency side. -/
theorem c7_frecency_dedup_after_truncation :
    (∀ (sh : Shell) (opts : ListOptions),
        opts.include_tmux = true → opts.include_zox = true →
        build_list_lines sh opts =
          (tmuxSessionsOf sh).map (fmtTmuxLine opts)
            ++ (zoxKeptOf sh opts).map (fmtZoxLine opts) ∧
        (∀ p, p ∈ zoxKeptOf sh opts ↔
          p ∈ zoxItemsOf sh opts ∧
            ∀ s ∈ tmuxSessionsOf sh, zoxNameOf p ≠ normalize_name s) ∧
        (∀ n, opts.z_limit = some n →
          zoxItemsOf sh opts = (list_all sh).take n ∧
            (zoxItemsOf sh opts).length ≤ n)) ∧
    build_list_lines shellBoth asciiOpts = ["[t] a", "[t] b", "[z] /z/c"] := by
  refine ⟨?_, by decide⟩
  intro sh opts ht hz
  refine ⟨build_both_eq sh opts ht hz, ?_, ?_⟩
  · intro p
    unfold zoxKeptOf
    rw [List.mem_filter]
    constructor
    · rintro ⟨hmem, hpred⟩
      refine ⟨hmem, ?_⟩
      intro s hs heq
      have hin : zoxNameOf p ∈ (tmuxSessionsOf sh).map normalize_name :=
        heq ▸ List.mem_map_of_mem normalize_name hs
      have hc : ((tmuxSessionsOf sh).map normalize_name).contains (zoxNameOf p)
          = true := List.elem_iff.mpr hin
      rw [hc] at hpred
      cases hpred
    · rintro ⟨hmem, hall⟩
      refine ⟨hmem, ?_⟩
      have hnot : zoxNameOf p ∉ (tmuxSessionsOf sh).map normalize_name := by
        intro hin
        rcases List.mem_map.1 hin with ⟨s, hs, heq⟩
        exact hall s hs heq.symm
      have hc : ((tmuxSessionsOf sh).map normalize_name).contains (zoxNameOf p)
          = false := by
        cases hcc : ((tmuxSessionsOf sh).map normalize_name).contains (zoxNameOf p)
        · rfl
        · exact absurd (List.elem_iff.mp hcc) hnot
      rw [hc]
      rfl
  · intro n hn
    unfold zoxItemsOf
    rw [hn]
    exact ⟨rfl, List.length_take_le n _⟩

theorem c7_frecency_dedup_after_truncation_witness :
    build_list_lines shellBoth asciiOpts =
      (tmuxSessionsOf shellBoth).map (fmtTmuxLine asciiOpts)
        ++ (zoxKeptOf shellBoth asciiOpts).map (fmtZoxLine asciiOpts) :=
  (c7_frecency_dedup_after_truncation.1 shellBoth asciiOpts rfl rfl).1

/-- Claim C8: the composed output is all session lines followed by all
frecency lines; the session names are lexicographically sorted except that a
determinable active session is moved to the front with the relative order of
the rest preserved; the kept frecency entries appear in source rank order
(they form a sublist of the source listing). -/
theorem c8_output_ordering :
    (∀ sh : Shell, List.Pairwise (fun a b => strLe a b = true) (list_sessions sh)) ∧
    (∀ (sh : Shell) (a : String) (pre post : List String),
        active_session sh = some a →
        list_sessions sh = pre ++ a :: post →
        a ∉ pre →
        tmuxSessionsOf sh = a :: (pre ++ post)) ∧
    (∀ (sh : Shell) (opts : ListOptions),
        opts.include_tmux = true → opts.include_zox = true →
        build_list_lines sh opts =
          (tmuxSessionsOf sh).map (fmtTmuxLine opts)
            ++ (zoxKeptOf sh opts).map (fmtZoxLine opts) ∧
        (zoxKeptOf sh opts).Sublist (list_all sh)) := by
  refine ⟨?_, ?_, ?_⟩
  · intro sh
    unfold list_sessions
    exact sortStrings_pairwise _
  · intro sh a pre post hact hsess hpre
    unfold tmuxSessionsOf
    rw [hact, hsess]
    exact promoteActive_promotes a pre post hpre
  · intro sh opts ht hz
    exact ⟨build_both_eq sh opts ht hz,
      (List.filter_sublist _).trans (zoxItems_sublist sh opts)⟩

theorem c8_output_ordering_witness :
    List.Pairwise (fun a b => strLe a b = true) (list_sessions shellActive) ∧
    tmuxSessionsOf shellActive = ["b", "a", "c"] := by
  refine ⟨c8_output_ordering.1 shellActive, ?_⟩
  exact (c8_output_ordering.2.1 shellActive "b" ["a"] ["c"]
    (by decide) (by decide) (by decide)).trans (by decide)

theorem c1_directory_priority_witness :
    Cmd.mk "tmux" ["new-session", "-ds", "web", "-c", "/home/u"]
      ∈ (run_connect shellBlankFirstLine ⟨["web"], none⟩).2 := by
  have h := (c1_directory_priority shellBlankFirstLine ⟨["web"], none⟩
    (by decide) (by decide)).1
  exact (by decide :
    Cmd.mk "tmux" ["new-session", "-ds", (parse_connect_line ["web"]).name, "-c",
      chosenDirOf shellBlankFirstLine ⟨["web"], none⟩]
    = Cmd.mk "tmux" ["new-session", "-ds", "web", "-c", "/home/u"]) ▸ h

end Nitro
